import Mathlib

/-!
Shallow embedding of the `lexer` Go package (felix/lexer, `src/lexer.go`).

The source buffer is a Go string, i.e. a sequence of bytes, modelled as
`List Nat` (each element a byte value).  Go `rune` is `int32`, modelled as
`Int` (all values manipulated by the code stay far inside the `int32`
range, so no wrap-around modelling is needed).  Byte offsets (`start`,
`position`) are non-negative in every reachable program point — the one
place the Go code lets `position` go transiently negative (`Backup`)
before clamping is modelled with an `Int` intermediate, as in the source.

The token channel is modelled as the list of tokens sent so far, in send
order; `NextToken` is modelled as a pull from the front of the remaining
queue (Go channel receive, FIFO; a receive on the closed, drained channel
yields the zero value and `ok = false`).
-/

set_option autoImplicit false

namespace GoLexer

/-- Go `utf8.DecodeRuneInString`: decode the first code point of a byte
sequence.  Empty input yields `(RuneError, 0)`; an invalid or truncated
encoding yields `(RuneError, 1)` where `RuneError = 0xFFFD`; otherwise the
decoded code point and its byte width (1–4).  The accept ranges for the
second byte (`0xE0 → [A0,BF]`, `0xED → [80,9F]`, `0xF0 → [90,BF]`,
`0xF4 → [80,8F]`) follow Go's `acceptRanges` table, rejecting overlong
forms, surrogates and values above `0x10FFFF`. -/
def decodeRune : List Nat → Int × Nat
  | [] => (0xFFFD, 0)
  | b0 :: rest =>
    if b0 < 0x80 then ((b0 : Int), 1)
    else if b0 < 0xC2 then (0xFFFD, 1)
    else if b0 ≤ 0xDF then
      match rest with
      | b1 :: _ =>
        if 0x80 ≤ b1 ∧ b1 ≤ 0xBF then
          (Int.ofNat ((b0 % 0x20) * 0x40 + b1 % 0x40), 2)
        else (0xFFFD, 1)
      | [] => (0xFFFD, 1)
    else if b0 ≤ 0xEF then
      match rest with
      | b1 :: b2 :: _ =>
        if (if b0 = 0xE0 then 0xA0 else 0x80) ≤ b1 ∧
            b1 ≤ (if b0 = 0xED then 0x9F else 0xBF) then
          if 0x80 ≤ b2 ∧ b2 ≤ 0xBF then
            (Int.ofNat ((b0 % 0x10) * 0x1000 + (b1 % 0x40) * 0x40 + b2 % 0x40), 3)
          else (0xFFFD, 1)
        else (0xFFFD, 1)
      | _ => (0xFFFD, 1)
    else if b0 ≤ 0xF4 then
      match rest with
      | b1 :: b2 :: b3 :: _ =>
        if (if b0 = 0xF0 then 0x90 else 0x80) ≤ b1 ∧
            b1 ≤ (if b0 = 0xF4 then 0x8F else 0xBF) then
          if 0x80 ≤ b2 ∧ b2 ≤ 0xBF then
            if 0x80 ≤ b3 ∧ b3 ≤ 0xBF then
              (Int.ofNat ((b0 % 8) * 0x40000 + (b1 % 0x40) * 0x1000 +
                (b2 % 0x40) * 0x40 + b3 % 0x40), 4)
            else (0xFFFD, 1)
          else (0xFFFD, 1)
        else (0xFFFD, 1)
      | _ => (0xFFFD, 1)
    else (0xFFFD, 1)

/-- Go `utf8.RuneLen`: the number of bytes of the UTF-8 encoding of a code
point, `-1` for a negative value, a surrogate, or a value above
`0x10FFFF`. -/
def runeLen (r : Int) : Int :=
  if r < 0 then -1
  else if r ≤ 0x7F then 1
  else if r ≤ 0x7FF then 2
  else if 0xD800 ≤ r ∧ r ≤ 0xDFFF then -1
  else if r ≤ 0xFFFF then 3
  else if r ≤ 0x10FFFF then 4
  else -1

/-- Go string conversion `string(r)`: the UTF-8 encoding of a valid code
point; an invalid code point encodes as `RuneError` (`EF BF BD`). -/
def encodeRune (r : Int) : List Nat :=
  if r < 0 ∨ (0x10FFFF : Int) < r ∨ ((0xD800 : Int) ≤ r ∧ r ≤ 0xDFFF) then
    [0xEF, 0xBF, 0xBD]
  else
    let n := r.toNat
    if n < 0x80 then [n]
    else if n < 0x800 then [0xC0 + n / 0x40, 0x80 + n % 0x40]
    else if n < 0x10000 then
      [0xE0 + n / 0x1000, 0x80 + (n / 0x40) % 0x40, 0x80 + n % 0x40]
    else
      [0xF0 + n / 0x40000, 0x80 + (n / 0x1000) % 0x40,
       0x80 + (n / 0x40) % 0x40, 0x80 + n % 0x40]

/-- Go `strings.IndexByte`: byte index of the first occurrence, `-1` if
absent. -/
def indexByte : List Nat → Nat → Int
  | [], _ => -1
  | b :: rest, c =>
    if b = c then 0
    else
      let i := indexByte rest c
      if i < 0 then -1 else i + 1

/-- Go `strings.Index` for a non-empty needle: byte index of the first
occurrence of the byte sequence `sub`, `-1` if absent. -/
def indexOfSeq : List Nat → List Nat → Int
  | s, sub =>
    if sub.isPrefixOf s then 0
    else
      match s with
      | [] => -1
      | _ :: rest =>
        let i := indexOfSeq rest sub
        if i < 0 then -1 else i + 1

/-- The `range` loop inside Go `strings.IndexRune` for `r = RuneError`:
the byte index of the first decoded position whose rune is `RuneError`
(equivalently the first invalid sequence or encoded `U+FFFD`).  The fuel
is the length of the remaining input; each step consumes at least one
byte, so the fuel never runs out when started at `bs.length`. -/
def indexErrAux : Nat → List Nat → Nat → Int
  | 0, _, _ => -1
  | _ + 1, [], _ => -1
  | fuel + 1, b :: rest, i =>
    if (decodeRune (b :: rest)).1 = 0xFFFD then (i : Int)
    else
      indexErrAux fuel ((b :: rest).drop (decodeRune (b :: rest)).2)
        (i + (decodeRune (b :: rest)).2)

/-- Go `utf8.ValidRune`. -/
def validRune (r : Int) : Prop :=
  0 ≤ r ∧ r ≤ 0x10FFFF ∧ ¬((0xD800 : Int) ≤ r ∧ r ≤ 0xDFFF)

instance (r : Int) : Decidable (validRune r) := by
  unfold validRune; infer_instance

/-- Go `strings.IndexRune`: ASCII runes search by byte; `RuneError`
matches the first invalid sequence (or encoded `U+FFFD`); an invalid rune
(in particular the `EOFRune` sentinel `-1`) never matches; other valid
runes search for their UTF-8 encoding as a substring. -/
def indexRune (s : List Nat) (r : Int) : Int :=
  if 0 ≤ r ∧ r < 0x80 then indexByte s r.toNat
  else if r = 0xFFFD then indexErrAux s.length s 0
  else if ¬validRune r then -1
  else indexOfSeq s (encodeRune r)

/-- Go `unicode.IsSpace`: membership in the `White_Space` property
(Latin-1 fast path plus the `White_Space` range table).  Negative values,
in particular the `EOFRune` sentinel `-1`, are not space. -/
def isSpace (r : Int) : Bool :=
  decide ((9 ≤ r ∧ r ≤ 13) ∨ r = 32 ∨ r = 0x85 ∨ r = 0xA0 ∨ r = 0x1680 ∨
    ((0x2000 : Int) ≤ r ∧ r ≤ 0x200A) ∨ r = 0x2028 ∨ r = 0x2029 ∨
    r = 0x202F ∨ r = 0x205F ∨ r = 0x3000)

/-- Number of runes obtained by iterated decoding of a byte sequence
(the rune count of a span).  Fuel bounded by the length, which suffices
since every decode step on non-empty input consumes at least one byte. -/
def runeCountAux : Nat → List Nat → Nat
  | 0, _ => 0
  | _ + 1, [] => 0
  | fuel + 1, b :: rest =>
    1 + runeCountAux fuel ((b :: rest).drop (decodeRune (b :: rest)).2)

def runeCount (bs : List Nat) : Nat := runeCountAux bs.length bs

/-- Go `EOFRune` — the reserved end-of-input rune sentinel. -/
def EOFRune : Int := -1

/-- Go `ErrorToken` — the reserved error token type tag. -/
def ErrorToken : Int := -1

/-- Go `EOFToken` — the reserved end-of-input token type tag. -/
def EOFToken : Int := 0

/-- Go `Token`: type tag, consumed value (a Go string, i.e. bytes), byte
position and line at emission. -/
structure Token where
  type : Int
  value : List Nat
  position : Nat
  line : Nat
  deriving DecidableEq, Repr

/-- Modelled from the spec: `stack.go` is not among the sources — only
`stack_test.go` and the `history` field's uses are.  Per the spec's
Backtracking History component and `TestStack`, it is a LIFO stack of
runes whose `pop` on the empty stack returns `EOFRune`; `push` pushes and
`clear` empties.  Modelled as a `List Int` with the top at the head;
`stackPop` returns the popped rune and the remaining stack. -/
def stackPop : List Int → Int × List Int
  | [] => (EOFRune, [])
  | r :: rest => (r, rest)

/-- Go `Lexer`: the engine state.  The unused `lastWidth` field of the Go
struct is omitted; `startState` is passed to the runner explicitly; the
token channel is the `tokens` list (send order). -/
structure Lexer where
  source : List Nat
  start : Nat
  line : Nat
  position : Nat
  history : List Int
  tokens : List Token
  deriving DecidableEq, Repr

/-- Go `New`: a lexer over the given source, `start = 0`, `line = 1`,
`position = 0`, empty history (and an empty token channel). -/
def New (src : List Nat) : Lexer :=
  { source := src, start := 0, line := 1, position := 0, history := [], tokens := [] }

/-- Go `Current`: the pending span `source[start:position]`. -/
def Current (l : Lexer) : List Nat :=
  (l.source.take l.position).drop l.start

/-- Go `checkLines`: advance `line` by the number of `'\n'` bytes in the
pending span (`bytes.Count(val, lineSep)`). -/
def checkLines (l : Lexer) : Lexer :=
  { l with line := l.line + (Current l).count 10 }

/-- Go `Emit`: build a token from the pending span, the current position
and the current line; send it; then `checkLines`, `start = position`,
clear history. -/
def Emit (t : Int) (l : Lexer) : Lexer :=
  let tok : Token := { type := t, value := Current l, position := l.position, line := l.line }
  let l1 := { l with tokens := l.tokens ++ [tok] }
  let l2 := checkLines l1
  { l2 with start := l2.position, history := [] }

/-- Go `Next`: decode one rune at `position` (the `EOFRune` sentinel with
width 0 at end of buffer), advance `position` by the width, push the rune
onto history, and return it. -/
def Next (l : Lexer) : Int × Lexer :=
  let str := l.source.drop l.position
  let rs := if str = [] then ((EOFRune, 0) : Int × Nat) else decodeRune str
  (rs.1, { l with position := l.position + rs.2, history := rs.1 :: l.history })

/-- Go `Ignore`: clear history, `checkLines`, `start = position`. -/
def Ignore (l : Lexer) : Lexer :=
  let l1 := checkLines { l with history := [] }
  { l1 with start := l1.position }

/-- Go `Backup`: pop the history (pop of the empty stack yields
`EOFRune`); if the popped rune is greater than `EOFRune`, retreat
`position` by `utf8.RuneLen` of it, clamped to not go below `start`. -/
def Backup (l : Lexer) : Lexer :=
  let rs := stackPop l.history
  if EOFRune < rs.1 then
    let p : Int := (l.position : Int) - runeLen rs.1
    { l with history := rs.2,
             position := if p < (l.start : Int) then l.start else p.toNat }
  else
    { l with history := rs.2 }

/-- Go `Peek`: `Next` immediately followed by `Backup`, returning the
peeked rune. -/
def Peek (l : Lexer) : Int × Lexer :=
  let rl := Next l
  (rl.1, Backup rl.2)

/-- Go `Accept`: consume one rune if it occurs in `valid`, else back up
and report no match. -/
def Accept (valid : List Nat) (l : Lexer) : Bool × Lexer :=
  let rl := Next l
  if 0 ≤ indexRune valid rl.1 then (true, rl.2)
  else (false, Backup rl.2)

/-- The loop of Go `AcceptRun`: keep consuming while the rune occurs in
`valid`, counting; on the first non-member (or the end sentinel, which
never matches) back up.  Fuel: every continuing step consumes at least
one byte, so `source.length - position + 1` steps always suffice. -/
def acceptRunAux (valid : List Nat) : Nat → Lexer → Nat → Nat × Lexer
  | 0, l, n => (n, l)
  | fuel + 1, l, n =>
    let rl := Next l
    if 0 ≤ indexRune valid rl.1 then acceptRunAux valid fuel rl.2 (n + 1)
    else (n, Backup rl.2)

/-- Go `AcceptRun`: consume a run of runes from `valid`, returning the
count consumed. -/
def AcceptRun (valid : List Nat) (l : Lexer) : Nat × Lexer :=
  acceptRunAux valid (l.source.length - l.position + 1) l 0

/-- The loop of Go `SkipWhitespace`: read a rune; if it is not space,
back up and stop; (otherwise, if it is the `EOFRune` sentinel, emit the
`EOFToken` and stop — dead in fact, since `unicode.IsSpace(EOFRune)` is
false); otherwise continue.  Fuel: every continuing step consumes at
least one byte, so `source.length - position + 1` steps always
suffice. -/
def skipWhitespaceAux : Nat → Lexer → Lexer
  | 0, l => l
  | fuel + 1, l =>
    let rl := Next l
    if ¬isSpace rl.1 then Backup rl.2
    else if rl.1 = EOFRune then Emit EOFToken rl.2
    else skipWhitespaceAux fuel rl.2

/-- Go `SkipWhitespace`. -/
def SkipWhitespace (l : Lexer) : Lexer :=
  skipWhitespaceAux (l.source.length - l.position + 1) l

/-- Go `StateFunc`: caller logic that transforms the lexer and yields the
next transition, or `none` — the terminal marker (Go `nil`). -/
inductive StateFunc where
  | mk : (Lexer → Lexer × Option StateFunc) → StateFunc

/-- Go `Error`: send a token with the reserved `ErrorToken` tag, the
formatted message (`fmt.Sprintf`, modelled as the already-formatted byte
string `msg`) as value, and the current position and line; return the
terminal marker. -/
def Error (msg : List Nat) (l : Lexer) : Lexer × Option StateFunc :=
  ({ l with tokens := l.tokens ++
      [{ type := ErrorToken, value := msg, position := l.position, line := l.line }] },
   none)

/-- Go `run`: invoke the current transition until one returns the
terminal marker, then close the channel.  The transition graph may loop
forever, hence the fuel; `none` means the run did not finish within
`fuel` transitions, `some lf` the final engine state at close. -/
def runLoop : Nat → Option StateFunc → Lexer → Option Lexer
  | _, none, l => some l
  | 0, some _, _ => none
  | fuel + 1, some (StateFunc.mk f), l => runLoop fuel (f l).2 (f l).1

/-- Go `NextToken`, in the synchronous mode where the run has completed
and the channel is closed: receive from the remaining queue; on the
drained queue return `(nil, true)`.  Returns the pulled result and the
remaining queue. -/
def NextToken (q : List Token) : (Option Token × Bool) × List Token :=
  match q with
  | [] => ((none, true), [])
  | t :: ts => ((some t, false), ts)

/-- The remaining queue after `k` pulls. -/
def afterPulls (q : List Token) (k : Nat) : List Token :=
  (fun q => (NextToken q).2)^[k] q

/-- State-changing engine operations, used to quantify over arbitrary
operation sequences (reachable engine states). -/
inductive Op where
  | next
  | backup
  | peek
  | accept (valid : List Nat)
  | acceptRun (valid : List Nat)
  | skipWhitespace
  | emit (t : Int)
  | ignore
  | error (msg : List Nat)

def applyOp : Op → Lexer → Lexer
  | .next, l => (Next l).2
  | .backup, l => Backup l
  | .peek, l => (Peek l).2
  | .accept v, l => (Accept v l).2
  | .acceptRun v, l => (AcceptRun v l).2
  | .skipWhitespace, l => SkipWhitespace l
  | .emit t, l => Emit t l
  | .ignore, l => Ignore l
  | .error m, l => (Error m l).1

def runOps (ops : List Op) (l : Lexer) : Lexer :=
  ops.foldl (fun l op => applyOp op l) l

/-- Shorthand for `Next` keeping only the state (discarding the returned rune). -/
def nextL (l : Lexer) : Lexer := (Next l).2

/-- The rune about to be decoded at the cursor re-encodes to exactly the
width consumed (true at end of input, and at every position of a valid
UTF-8 buffer; false exactly at a malformed sequence, where the decoder
yields the 3-byte-wide replacement rune for a shorter consumed width). -/
def goodStep (l : Lexer) : Prop :=
  l.source.drop l.position = [] ∨
    runeLen (decodeRune (l.source.drop l.position)).1 =
      ((decodeRune (l.source.drop l.position)).2 : Int)

instance (l : Lexer) : Decidable (goodStep l) := by
  unfold goodStep; infer_instance

/-- The cursor invariant of the spec (`0 ≤ start` holds by the `Nat`
representation), strengthened with the fact — needed for preservation —
that every history entry is either negative (the `EOFRune` sentinel) or a
code point with a positive encoded width. -/
def Inv (l : Lexer) : Prop :=
  l.start ≤ l.position ∧ l.position ≤ l.source.length ∧ 1 ≤ l.line ∧
    ∀ r ∈ l.history, r < 0 ∨ 1 ≤ runeLen r

/-- At offset `p` the input stops a run over `valid`: either the end of
the buffer, or a decoded rune that is not in `valid` and whose encoding
width matches its consumed width (i.e. an actual non-member rune, not a
decoding artifact). -/
def stopAt (valid src : List Nat) (p : Nat) : Prop :=
  src.length ≤ p ∨
    (indexRune valid (decodeRune (src.drop p)).1 < 0 ∧
      runeLen (decodeRune (src.drop p)).1 = ((decodeRune (src.drop p)).2 : Int))

/-- The predicate `RunShape valid src p k pend`: starting at offset `p`, the input
consists of `k` consecutive runes that all occur in `valid`, followed at
offset `pend` by a non-member rune or the end of the buffer. -/
inductive RunShape (valid src : List Nat) : Nat → Nat → Nat → Prop where
  | stop : ∀ p, stopAt valid src p → RunShape valid src p 0 p
  | step : ∀ p k pend, p < src.length →
      0 ≤ indexRune valid (decodeRune (src.drop p)).1 →
      RunShape valid src (p + (decodeRune (src.drop p)).2) k pend →
      RunShape valid src p (k + 1) pend

/-- The ASCII digit bytes `"0123456789"`. -/
def digitBytes : List Nat := [48, 49, 50, 51, 52, 53, 54, 55, 56, 57]

/-- The bytes of `"123\n456\n789"`. -/
def lineExampleSrc : List Nat := [49, 50, 51, 10, 52, 53, 54, 10, 55, 56, 57]

/-- The spec's line-accounting example: `"123\n456\n789"` lexed so that
each line's leading digits are emitted (accept a digit run, emit it, skip
the newline, ignore it, accept the next run, emit it) — the body of the
`NewlineState` grammar of the repository's tests, composed from the
engine operations. -/
def lineExample : Lexer :=
  Emit 1 (AcceptRun digitBytes (Ignore (SkipWhitespace
    (Emit 1 (AcceptRun digitBytes (New lineExampleSrc)).2)))).2

/-! Helper lemmas about the decoder. -/

set_option maxHeartbeats 2000000 in
theorem decode_good (bs : List Nat) (h : bs ≠ []) :
    0 ≤ (decodeRune bs).1 ∧ 1 ≤ runeLen (decodeRune bs).1 ∧
      1 ≤ (decodeRune bs).2 ∧ (decodeRune bs).2 ≤ bs.length := by
  match bs with
  | b0 :: rest =>
    rcases rest with _ | ⟨b1, _ | ⟨b2, _ | ⟨b3, rest'⟩⟩⟩ <;>
      (simp only [decodeRune]; split_ifs <;>
        (refine ⟨?_, ?_, ?_, ?_⟩ <;>
          (try dsimp only) <;>
          (try simp only [runeLen, Int.ofNat_eq_coe, List.length_cons]) <;>
          (try split_ifs) <;> omega))

theorem decode_size_le (bs : List Nat) : (decodeRune bs).2 ≤ bs.length := by
  match bs with
  | [] => simp [decodeRune]
  | b0 :: rest => exact (decode_good (b0 :: rest) (by simp)).2.2.2

/-- The search `indexRune` never finds the `EOFRune` sentinel. -/
theorem indexRune_eofRune (valid : List Nat) : indexRune valid (-1) = -1 := by
  norm_num [indexRune, validRune]

/-- A rune that `indexRune` finds is non-negative. -/
theorem indexRune_nonneg (valid : List Nat) (r : Int)
    (h : 0 ≤ indexRune valid r) : 0 ≤ r := by
  by_contra hneg
  push_neg at hneg
  have hz : indexRune valid r = -1 := by
    unfold indexRune
    have h1 : ¬(0 ≤ r ∧ r < 0x80) := by omega
    have h2 : r ≠ 0xFFFD := by omega
    have h3 : ¬validRune r := by unfold validRune; omega
    simp [h1, h2, h3]
  omega

/-! Basic facts about `Next` and `Backup`. -/

theorem nextL_source (l : Lexer) : (nextL l).source = l.source := rfl

theorem nextL_start (l : Lexer) : (nextL l).start = l.start := rfl

theorem nextL_pos_mono (l : Lexer) : l.position ≤ (nextL l).position := by
  simp [nextL, Next]

theorem nextL_iter_start (l : Lexer) (n : Nat) : (nextL^[n] l).start = l.start := by
  induction n with
  | zero => rfl
  | succ n ih => rw [Function.iterate_succ_apply', nextL_start, ih]

theorem nextL_iter_pos (l : Lexer) (n : Nat) : l.position ≤ (nextL^[n] l).position := by
  induction n with
  | zero => exact le_refl _
  | succ n ih =>
    rw [Function.iterate_succ_apply']
    exact le_trans ih (nextL_pos_mono _)

/-- One `Backup` exactly undoes one `Next` whenever the decoded rune
re-encodes to the width consumed (in particular at end of input, where
the pushed sentinel is popped again without moving). -/
theorem backup_next (l : Lexer) (h1 : l.start ≤ l.position) (h2 : goodStep l) :
    Backup (nextL l) = l := by
  by_cases he : l.source.drop l.position = []
  · simp [nextL, Next, Backup, stackPop, he, EOFRune]
  · have hg := decode_good _ he
    have hlen : runeLen (decodeRune (l.source.drop l.position)).1 =
        ((decodeRune (l.source.drop l.position)).2 : Int) := by
      rcases h2 with h2 | h2
      · exact absurd h2 he
      · exact h2
    have hr : (-1 : Int) < (decodeRune (l.source.drop l.position)).1 := by
      have := hg.1; omega
    have harith : ¬((l.position : Int) + ((decodeRune (l.source.drop l.position)).2 : Int) -
        runeLen (decodeRune (l.source.drop l.position)).1 < (l.start : Int)) := by
      rw [hlen]; omega
    have harith2 : ((l.position : Int) + ((decodeRune (l.source.drop l.position)).2 : Int) -
        runeLen (decodeRune (l.source.drop l.position)).1).toNat = l.position := by
      rw [hlen]; omega
    simp [nextL, Next, Backup, stackPop, he, EOFRune, hr, harith, harith2]

/-! Claim theorems. -/

/-- C2 counterexample: over the source byte sequence `"a\xff"`, from the
reachable state after one `Next` (position 1, pending span `"a"`, no
boundary passed), one further `Next` followed by one `Backup` does not
return the cursor to position 1: the malformed byte `0xFF` decodes to the
replacement rune with consumed width 1, but `Backup` retreats by
`utf8.RuneLen(U+FFFD) = 3`, clamped to `start = 0`.  The pending span
changes from `"a"` to `""`. -/
theorem Next_Backup_roundtrip_cex :
    (nextL (New [0x61, 0xFF])).position = 1 ∧
      (Backup (nextL (nextL (New [0x61, 0xFF])))).position = 0 ∧
      Current (Backup (nextL (nextL (New [0x61, 0xFF])))) ≠
        Current (nextL (New [0x61, 0xFF])) := by
  decide

/-- C2 (amended): for any lexer state with `start ≤ position` and no
intervening boundary, if each of the `N` runes read by the `Next` calls
re-encodes to the width consumed (always true at end of input and on
valid UTF-8 input; only a malformed encoding violates it), then `N`
`Next` calls followed by `N` `Backup` calls restore the whole engine
state — in particular the cursor position and the pending span. -/
theorem Next_Backup_roundtrip (l : Lexer) (N : Nat)
    (h1 : l.start ≤ l.position)
    (hg : ∀ i < N, goodStep (nextL^[i] l)) :
    Backup^[N] (nextL^[N] l) = l ∧
      (Backup^[N] (nextL^[N] l)).position = l.position ∧
      Current (Backup^[N] (nextL^[N] l)) = Current l := by
  have main : Backup^[N] (nextL^[N] l) = l := by
    induction N with
    | zero => simp
    | succ n ih =>
      have hA : nextL^[n + 1] l = nextL (nextL^[n] l) :=
        Function.iterate_succ_apply' nextL n l
      rw [hA, Function.iterate_succ_apply Backup]
      have hstart : (nextL^[n] l).start ≤ (nextL^[n] l).position := by
        rw [nextL_iter_start]
        exact le_trans h1 (nextL_iter_pos l n)
      rw [backup_next (nextL^[n] l) hstart (hg n (Nat.lt_succ_self n))]
      exact ih (fun i hi => hg i (Nat.lt_succ_of_lt hi))
  exact ⟨main, by rw [main], by rw [main]⟩

theorem Next_Backup_roundtrip_witness :
    ((New [0x61, 0x62]).start ≤ (New [0x61, 0x62]).position ∧
      (∀ i < 2, goodStep (nextL^[i] (New [0x61, 0x62])))) ∧
      Backup^[2] (nextL^[2] (New [0x61, 0x62])) = New [0x61, 0x62] :=
  ⟨⟨by decide, by decide⟩,
    (Next_Backup_roundtrip (New [0x61, 0x62]) 2 (by decide) (by decide)).1⟩

/-- C3 counterexample: on the empty source, one `Next` pushes the
`EOFRune` sentinel onto the history stack: the stack then has length 1
although the span between `start` and `position` contains 0 runes — the
claimed "no push at end of buffer" and the stack-length bound both
fail. -/
theorem Next_at_eof_cex :
    (Next (New [])).2.history = [EOFRune] ∧
      (Next (New [])).2.history.length = 1 ∧
      runeCount (Current (Next (New [])).2) = 0 := by
  decide

/-- C3 (amended): when `Next` is called with the position at (or past)
the end of the buffer it returns the `EOFRune` sentinel and does not
advance the position, but it does push the sentinel onto the history
stack; a subsequent `Backup` pops that zero-width entry without moving
the position, so the stack length is bounded by the number of `Next`
calls since the last boundary rather than by the rune count of the
span. -/
theorem Next_at_eof (l : Lexer) (h : l.source.length ≤ l.position) :
    (Next l).1 = EOFRune ∧ (Next l).2.position = l.position ∧
      (Next l).2.history = EOFRune :: l.history ∧ Backup (Next l).2 = l := by
  have he : l.source.drop l.position = [] := by
    rw [List.drop_eq_nil_iff]
    exact h
  refine ⟨?_, ?_, ?_, ?_⟩ <;> simp [Next, Backup, stackPop, he, EOFRune]

theorem Next_at_eof_witness :
    (New []).source.length ≤ (New []).position ∧ (Next (New [])).1 = EOFRune :=
  ⟨by decide, (Next_at_eof (New []) (by decide)).1⟩

/-- C7: immediately after `Emit` or `Ignore` the history stack is empty,
and a following `Backup` is a no-op — the whole state, in particular the
position and the pending span, is unchanged. -/
theorem Backup_after_boundary (t : Int) (l : Lexer) :
    (Emit t l).history = [] ∧ (Ignore l).history = [] ∧
      Backup (Emit t l) = Emit t l ∧ Backup (Ignore l) = Ignore l := by
  refine ⟨rfl, rfl, ?_, ?_⟩ <;>
    simp [Backup, stackPop, Emit, Ignore, checkLines, EOFRune]

/-- C8: `Error` enqueues exactly one token carrying the reserved
`ErrorToken` tag, the (pre-formatted) message as value, and the current
position and line; it returns the terminal marker, and a transition that
returns its result stops the run: the runner closes with exactly that
state. -/
theorem Error_spec (msg : List Nat) (l : Lexer) :
    (Error msg l).1.tokens = l.tokens ++
        [{ type := ErrorToken, value := msg, position := l.position, line := l.line }] ∧
      (Error msg l).2 = none ∧
      ∀ fuel l0, runLoop (fuel + 1) (some (StateFunc.mk (fun x => Error msg x))) l0 =
        some (Error msg l0).1 := by
  refine ⟨rfl, rfl, fun fuel l0 => ?_⟩
  simp [runLoop, Error]

/-- C10: `Error` leaves `start`, `position`, `line` and the history stack
unchanged — its only effect is appending the error token — so the pending
span is still readable, and `Backup` behaves exactly as it would have
before the `Error` call. -/
theorem Error_frame (msg : List Nat) (l : Lexer) :
    (Error msg l).1.start = l.start ∧ (Error msg l).1.position = l.position ∧
      (Error msg l).1.line = l.line ∧ (Error msg l).1.history = l.history ∧
      Current (Error msg l).1 = Current l ∧
      (Backup (Error msg l).1).position = (Backup l).position ∧
      (Backup (Error msg l).1).history = (Backup l).history ∧
      Current (Backup (Error msg l).1) = Current (Backup l) := by
  refine ⟨rfl, rfl, rfl, rfl, rfl, ?_, ?_, ?_⟩ <;>
    rcases hh : l.history with _ | ⟨r, rest⟩ <;>
      simp [Backup, Error, stackPop, Current, hh] <;> split_ifs <;> simp

/-! Preservation of the cursor invariant by every engine operation. -/

theorem Inv_New (src : List Nat) : Inv (New src) := by
  refine ⟨le_refl _, Nat.zero_le _, le_refl _, ?_⟩
  intro r hr
  simp [New] at hr

theorem Inv_Next (l : Lexer) (h : Inv l) : Inv (Next l).2 := by
  obtain ⟨hsp, hpl, hline, hhist⟩ := h
  by_cases he : l.source.drop l.position = []
  · refine ⟨by simp [Next, he]; omega, by simp [Next, he]; omega,
      by simp [Next, he]; omega, ?_⟩
    intro r hr
    simp [Next, he] at hr
    rcases hr with hr | hr
    · left; rw [hr]; norm_num [EOFRune]
    · exact hhist r hr
  · have hg := decode_good _ he
    have hsz : (decodeRune (l.source.drop l.position)).2 ≤ l.source.length - l.position := by
      have := decode_size_le (l.source.drop l.position)
      simpa using this
    refine ⟨by simp [Next, he]; omega, by simp [Next, he]; omega,
      by simp [Next, he]; omega, ?_⟩
    intro r hr
    simp [Next, he] at hr
    rcases hr with hr | hr
    · right; rw [hr]; exact hg.2.1
    · exact hhist r hr

theorem Inv_Backup (l : Lexer) (h : Inv l) : Inv (Backup l) := by
  obtain ⟨hsp, hpl, hline, hhist⟩ := h
  unfold Backup
  rcases hh : l.history with _ | ⟨r, rest⟩
  · simp only [stackPop, EOFRune]
    norm_num
    exact ⟨hsp, hpl, hline, fun r hr => by simp at hr⟩
  · simp only [stackPop]
    by_cases hr : EOFRune < r
    · rw [if_pos hr]
      have hlen1 : 1 ≤ runeLen r := by
        rcases hhist r (by rw [hh]; exact List.mem_cons_self r rest) with hc | hc
        · exfalso; unfold EOFRune at hr; omega
        · exact hc
      refine ⟨?_, ?_, hline, ?_⟩
      · simp only
        split_ifs with hp
        · exact le_refl _
        · omega
      · simp only
        split_ifs with hp
        · omega
        · omega
      · intro x hx
        simp only at hx
        exact hhist x (by rw [hh]; exact List.mem_cons_of_mem r hx)
    · rw [if_neg hr]
      refine ⟨hsp, hpl, hline, ?_⟩
      intro x hx
      simp only at hx
      exact hhist x (by rw [hh]; exact List.mem_cons_of_mem r hx)

theorem Inv_Peek (l : Lexer) (h : Inv l) : Inv (Peek l).2 :=
  Inv_Backup _ (Inv_Next l h)

theorem Inv_Emit (t : Int) (l : Lexer) (h : Inv l) : Inv (Emit t l) := by
  obtain ⟨hsp, hpl, hline, hhist⟩ := h
  refine ⟨le_refl _, hpl, by simp [Emit, checkLines]; omega, ?_⟩
  intro r hr
  simp [Emit] at hr

theorem Inv_Ignore (l : Lexer) (h : Inv l) : Inv (Ignore l) := by
  obtain ⟨hsp, hpl, hline, hhist⟩ := h
  refine ⟨le_refl _, hpl, by simp [Ignore, checkLines]; omega, ?_⟩
  intro r hr
  simp [Ignore, checkLines] at hr

theorem Inv_Error (msg : List Nat) (l : Lexer) (h : Inv l) : Inv (Error msg l).1 := by
  obtain ⟨hsp, hpl, hline, hhist⟩ := h
  exact ⟨hsp, hpl, hline, hhist⟩

theorem Inv_Accept (valid : List Nat) (l : Lexer) (h : Inv l) : Inv (Accept valid l).2 := by
  unfold Accept
  dsimp only
  split_ifs
  · exact Inv_Next l h
  · exact Inv_Backup _ (Inv_Next l h)

theorem Inv_acceptRunAux (valid : List Nat) (fuel : Nat) :
    ∀ l n, Inv l → Inv (acceptRunAux valid fuel l n).2 := by
  induction fuel with
  | zero => intro l n h; exact h
  | succ fuel ih =>
    intro l n h
    unfold acceptRunAux
    dsimp only
    split_ifs
    · exact ih _ _ (Inv_Next l h)
    · exact Inv_Backup _ (Inv_Next l h)

theorem Inv_AcceptRun (valid : List Nat) (l : Lexer) (h : Inv l) :
    Inv (AcceptRun valid l).2 :=
  Inv_acceptRunAux valid _ l 0 h

theorem Inv_skipWhitespaceAux (fuel : Nat) :
    ∀ l, Inv l → Inv (skipWhitespaceAux fuel l) := by
  induction fuel with
  | zero => intro l h; exact h
  | succ fuel ih =>
    intro l h
    unfold skipWhitespaceAux
    dsimp only
    split_ifs
    · exact Inv_Emit _ _ (Inv_Next l h)
    · exact ih _ (Inv_Next l h)
    · exact Inv_Backup _ (Inv_Next l h)

theorem Inv_SkipWhitespace (l : Lexer) (h : Inv l) : Inv (SkipWhitespace l) :=
  Inv_skipWhitespaceAux _ l h

theorem Inv_applyOp (op : Op) (l : Lexer) (h : Inv l) : Inv (applyOp op l) := by
  cases op with
  | next => exact Inv_Next l h
  | backup => exact Inv_Backup l h
  | peek => exact Inv_Peek l h
  | accept v => exact Inv_Accept v l h
  | acceptRun v => exact Inv_AcceptRun v l h
  | skipWhitespace => exact Inv_SkipWhitespace l h
  | emit t => exact Inv_Emit t l h
  | ignore => exact Inv_Ignore l h
  | error m => exact Inv_Error m l h

/-- C6: the cursor invariant `0 ≤ start ≤ position ≤ length(source)`
(the lower bound `0 ≤ start` is inherent in the `Nat` representation)
holds after construction and after any sequence of engine operations
(`Next`, `Backup`, `Peek`, `Accept`, `AcceptRun`, `SkipWhitespace`,
`Emit`, `Ignore`, `Error`), and `line` is always at least 1. -/
theorem cursor_invariant (src : List Nat) (ops : List Op) :
    (runOps ops (New src)).start ≤ (runOps ops (New src)).position ∧
      (runOps ops (New src)).position ≤ (runOps ops (New src)).source.length ∧
      1 ≤ (runOps ops (New src)).line := by
  have key : ∀ (ops : List Op) (l : Lexer), Inv l → Inv (runOps ops l) := by
    intro ops
    induction ops with
    | nil => intro l h; exact h
    | cons op rest ih =>
      intro l h
      exact ih _ (Inv_applyOp op l h)
  have h := key ops _ (Inv_New src)
  exact ⟨h.1, h.2.1, h.2.2.1⟩

/-! Facts about which operations touch the token channel. -/

theorem Next_tokens (l : Lexer) : (Next l).2.tokens = l.tokens := rfl

theorem Backup_tokens (l : Lexer) : (Backup l).tokens = l.tokens := by
  unfold Backup
  dsimp only
  split_ifs <;> rfl

theorem acceptRunAux_tokens (valid : List Nat) (fuel : Nat) :
    ∀ l n, (acceptRunAux valid fuel l n).2.tokens = l.tokens := by
  induction fuel with
  | zero => intro l n; rfl
  | succ fuel ih =>
    intro l n
    unfold acceptRunAux
    dsimp only
    split_ifs
    · rw [ih, Next_tokens]
    · rw [Backup_tokens, Next_tokens]

theorem skipWhitespaceAux_tokens (fuel : Nat) :
    ∀ l, (skipWhitespaceAux fuel l).tokens = l.tokens := by
  induction fuel with
  | zero => intro l; rfl
  | succ fuel ih =>
    intro l
    unfold skipWhitespaceAux
    dsimp only
    split_ifs with hsp heof
    · exfalso
      rw [show (Next l).1 = EOFRune from heof] at hsp
      exact absurd hsp (by decide)
    · rw [ih, Next_tokens]
    · rw [Backup_tokens, Next_tokens]

/-- C1 (the code diverges from the claim): `SkipWhitespace` never emits
any token at all — in particular it never emits the `EOFToken` even when
it runs into the end of the buffer while skipping whitespace.  The
`r == EOFRune` branch of its loop is unreachable, because
`unicode.IsSpace(EOFRune)` is false so the `!IsSpace` branch backs up and
breaks first.  Concretely, on the all-whitespace source `" "` the skip
consumes the space, reaches the end, and finishes with an empty token
channel. -/
theorem SkipWhitespace_never_emits :
    (∀ l : Lexer, (SkipWhitespace l).tokens = l.tokens) ∧
      (SkipWhitespace (New [32])).tokens = [] ∧
      (SkipWhitespace (New [32])).position = 1 := by
  refine ⟨fun l => skipWhitespaceAux_tokens _ l, by decide, by decide⟩

/-- C5: `Emit` enqueues a token whose value is the pending span, whose
position is the current position and whose line is the line count before
any advance; only then is `line` increased by the newline count of the
span and `start` moved to `position` (and the history cleared).  For the
source `"123\n456\n789"` lexed so each line's digits are emitted, the
first token reports line 1 and the second line 2. -/
theorem Emit_spec (t : Int) (l : Lexer) :
    (Emit t l = { l with
      tokens := l.tokens ++ [Token.mk t (Current l) l.position l.line],
      line := l.line + (Current l).count 10,
      start := l.position,
      history := [] }) ∧
      lineExample.tokens.map Token.line = [1, 2] ∧
      lineExample.tokens.map Token.value = [[49, 50, 51], [52, 53, 54]] :=
  ⟨rfl, by decide, by decide⟩

/-! The token queue: emission order and the closed stream. -/

theorem runOps_cons (op : Op) (rest : List Op) (l : Lexer) :
    runOps (op :: rest) l = runOps rest (applyOp op l) := rfl

theorem applyOp_tokens_append (op : Op) (l : Lexer) :
    ∃ ts, (applyOp op l).tokens = l.tokens ++ ts := by
  cases op with
  | next => exact ⟨[], by simp [applyOp, Next_tokens]⟩
  | backup => exact ⟨[], by simp [applyOp, Backup_tokens]⟩
  | peek => exact ⟨[], by simp [applyOp, Peek, Backup_tokens, Next_tokens]⟩
  | accept v =>
    refine ⟨[], ?_⟩
    unfold applyOp Accept
    dsimp only
    split_ifs <;> simp [Backup_tokens, Next_tokens]
  | acceptRun v => exact ⟨[], by simp [applyOp, AcceptRun, acceptRunAux_tokens]⟩
  | skipWhitespace => exact ⟨[], by simp [applyOp, SkipWhitespace, skipWhitespaceAux_tokens]⟩
  | emit t => exact ⟨[Token.mk t (Current l) l.position l.line], rfl⟩
  | ignore => exact ⟨[], by simp [applyOp, Ignore, checkLines]⟩
  | error m => exact ⟨[Token.mk ErrorToken m l.position l.line], rfl⟩

theorem runOps_tokens_prefix (ops : List Op) :
    ∀ l : Lexer, l.tokens <+: (runOps ops l).tokens := by
  induction ops with
  | nil => intro l; exact List.prefix_refl _
  | cons op rest ih =>
    intro l
    rw [runOps_cons]
    obtain ⟨ts, hts⟩ := applyOp_tokens_append op l
    exact List.IsPrefix.trans ⟨ts, hts.symm⟩ (ih _)

theorem afterPulls_drop (q : List Token) (k : Nat) : afterPulls q k = q.drop k := by
  induction k generalizing q with
  | zero => rfl
  | succ k ih =>
    rw [afterPulls, Function.iterate_succ_apply]
    cases q with
    | nil => rw [show (NextToken []).2 = [] from rfl]; simpa using ih []
    | cons t ts => rw [show (NextToken (t :: ts)).2 = ts from rfl]; exact ih ts

/-- C4: the engine only ever appends to the token queue (so the queue
holds the tokens in exactly emission order), and once the transition
graph has returned the terminal marker and the run closed with final
state `lf`, the consumer pulling via `NextToken` observes precisely
`lf.tokens` in order: the `k`-th pull returns the `k`-th emitted token
while one exists, and the stream-closed indicator (no token,
`done = true`) for every `k` from the queue length on — never a token
again. -/
theorem NextToken_fifo :
    (∀ (ops : List Op) (l : Lexer), l.tokens <+: (runOps ops l).tokens) ∧
      ∀ (fuel : Nat) (s : Option StateFunc) (l lf : Lexer),
        runLoop fuel s l = some lf →
        ∀ k : Nat,
          (NextToken (afterPulls lf.tokens k)).1.1 = lf.tokens.get? k ∧
          ((NextToken (afterPulls lf.tokens k)).1.2 = true ↔ lf.tokens.length ≤ k) := by
  constructor
  · exact fun ops l => runOps_tokens_prefix ops l
  · intro fuel s l lf hrun k
    rw [afterPulls_drop]
    rcases hd : lf.tokens.drop k with _ | ⟨t, ts⟩
    · have hlen : lf.tokens.length ≤ k := List.drop_eq_nil_iff.mp hd
      constructor
      · rw [show (NextToken []).1.1 = none from rfl]
        exact (List.get?_eq_none.mpr hlen).symm
      · simp [NextToken, hlen]
    · have hget : lf.tokens.get? k = some t := by
        have h0 : (lf.tokens.drop k)[0]? = lf.tokens[k + 0]? := List.getElem?_drop _ _ _
        rw [hd] at h0
        rw [List.get?_eq_getElem?]
        simpa using h0.symm
      constructor
      · rw [hget]; rfl
      · constructor
        · intro hfalse
          exact absurd hfalse (by simp [NextToken])
        · intro hlen
          have : lf.tokens.drop k = [] := List.drop_eq_nil_iff.mpr hlen
          rw [hd] at this
          exact absurd this (by simp)

theorem NextToken_fifo_witness :
    (runLoop 1 (some (StateFunc.mk (fun x => (Emit 1 (nextL x), none)))) (New [49]) =
        some (Emit 1 (nextL (New [49])))) ∧
      (NextToken (afterPulls (Emit 1 (nextL (New [49]))).tokens 0)).1.1 =
        (Emit 1 (nextL (New [49]))).tokens.get? 0 ∧
      ((NextToken (afterPulls (Emit 1 (nextL (New [49]))).tokens 1)).1.2 = true ↔
        (Emit 1 (nextL (New [49]))).tokens.length ≤ 1) := by
  have h := NextToken_fifo.2 1 (some (StateFunc.mk (fun x => (Emit 1 (nextL x), none))))
    (New [49]) (Emit 1 (nextL (New [49]))) rfl
  exact ⟨rfl, (h 0).1, (h 1).2⟩

/-! `AcceptRun` against the run-shape of its input. -/

theorem acceptRunAux_runShape (valid src : List Nat) {p k pend : Nat}
    (h : RunShape valid src p k pend) :
    ∀ (l : Lexer) (fuel n : Nat), l.source = src → l.position = p → l.start ≤ p →
      src.length - p < fuel →
      (acceptRunAux valid fuel l n).1 = n + k ∧
        (acceptRunAux valid fuel l n).2.position = pend ∧
        (acceptRunAux valid fuel l n).2.start = l.start := by
  induction h with
  | stop p hstop =>
    intro l fuel n hsrc hpos hsp hfuel
    cases fuel with
    | zero => omega
    | succ fuel =>
      unfold acceptRunAux
      dsimp only
      have hgs : goodStep l := by
        unfold goodStep
        rcases hstop with hend | ⟨_, hw⟩
        · left; rw [hsrc, hpos]; exact List.drop_eq_nil_iff.mpr hend
        · right; rw [hsrc, hpos]; exact hw
      have hback : Backup (Next l).2 = l := backup_next l (by omega) hgs
      have hcond : ¬(0 ≤ indexRune valid (Next l).1) := by
        rcases hstop with hend | ⟨hnm, hw⟩
        · have he : l.source.drop l.position = [] := by
            rw [hsrc, hpos]; exact List.drop_eq_nil_iff.mpr hend
          have h1 : (Next l).1 = -1 := by simp [Next, he, EOFRune]
          rw [h1, indexRune_eofRune]
          omega
        · by_cases he : l.source.drop l.position = []
          · exfalso
            rw [hsrc, hpos] at he
            rw [he] at hw
            exact absurd hw (by decide)
          · have h1 : (Next l).1 = (decodeRune (src.drop p)).1 := by
              rw [← hsrc, ← hpos]
              simp [Next, he]
            rw [h1]
            omega
      rw [if_neg hcond, hback]
      exact ⟨by omega, hpos, rfl⟩
  | step p k pend hlt hmem hrest ih =>
    intro l fuel n hsrc hpos hsp hfuel
    cases fuel with
    | zero => omega
    | succ fuel =>
      unfold acceptRunAux
      dsimp only
      have he : l.source.drop l.position ≠ [] := by
        rw [hsrc, hpos]
        rw [Ne, List.drop_eq_nil_iff]
        omega
      have h1 : (Next l).1 = (decodeRune (src.drop p)).1 := by
        rw [← hsrc, ← hpos]
        simp [Next, he]
      rw [h1, if_pos hmem]
      have hne : src.drop p ≠ [] := by rw [← hsrc, ← hpos]; exact he
      have hsz : 1 ≤ (decodeRune (src.drop p)).2 := (decode_good _ hne).2.2.1
      have hpos2 : (Next l).2.position = p + (decodeRune (src.drop p)).2 := by
        rw [← hsrc, ← hpos]
        simp [Next, he]
      have hih := ih (Next l).2 fuel (n + 1) hsrc hpos2
        (by rw [show (Next l).2.start = l.start from rfl]; omega)
        (by omega)
      refine ⟨?_, hih.2.1, ?_⟩
      · rw [hih.1]; omega
      · rw [hih.2.2]; rfl

/-- C9: over input whose pending suffix consists of `k` consecutive runes
all occurring in `valid` followed by a non-member rune or the end of the
buffer (at offset `pend`), `AcceptRun valid` consumes exactly that
prefix: it returns `k` and leaves the cursor at `pend`, the position of
the first non-member, with `start` untouched. -/
theorem AcceptRun_maximal (valid : List Nat) (l : Lexer) (k pend : Nat)
    (hsp : l.start ≤ l.position)
    (h : RunShape valid l.source l.position k pend) :
    (AcceptRun valid l).1 = k ∧ (AcceptRun valid l).2.position = pend ∧
      (AcceptRun valid l).2.start = l.start := by
  have hmain := acceptRunAux_runShape valid l.source h l
    (l.source.length - l.position + 1) 0 rfl rfl hsp (by omega)
  simpa using hmain

theorem AcceptRun_maximal_witness :
    ((New [49, 50, 97]).start ≤ (New [49, 50, 97]).position ∧
        RunShape digitBytes [49, 50, 97] 0 2 2) ∧
      (AcceptRun digitBytes (New [49, 50, 97])).1 = 2 ∧
      (AcceptRun digitBytes (New [49, 50, 97])).2.position = 2 := by
  have hshape : RunShape digitBytes [49, 50, 97] 0 2 2 :=
    RunShape.step 0 1 2 (by decide) (by decide)
      (RunShape.step 1 0 2 (by decide) (by decide)
        (RunShape.stop 2 (Or.inr ⟨by decide, by decide⟩)))
  have h := AcceptRun_maximal digitBytes (New [49, 50, 97]) 2 2 (by decide) hshape
  exact ⟨⟨by decide, hshape⟩, h.1, h.2.1⟩

end GoLexer
